import Mathlib

/-!
# Verification of the RAG core of `rag_bedrock_real.py`

Shallow embedding of the Chunker (`split_into_chunks`) and the Retriever
(`create_vector_store` / `retrieve_relevant_chunks`) of
`src/rag/rag_bedrock_real.py`.  Python strings are modelled as `List Char`,
Python `int` as `Int`, floating point numbers as exact reals.  The
third-party pieces the code calls are embedded by their documented
behaviour:

* `str.split()` — maximal runs of non-whitespace characters;
* `str.strip()` — drop whitespace from both ends;
* `sklearn.TfidfVectorizer()` with default parameters — tokens are maximal
  runs of word characters of length at least two, lowercased; vocabulary is
  the sorted set of corpus tokens; weight = term count times smoothed idf
  `log((1+n)/(1+df)) + 1`; rows L2-normalised (zero rows kept);
  `fit_transform` raises `ValueError` on an empty vocabulary;
* `sklearn.cosine_similarity` — rows L2-normalised (zero rows kept), then
  dot products;
* `numpy.argsort` — ascending sort of the indices by value; tie order is
  modelled as index order, which matches numpy only on small arrays (its
  default quicksort falls back to a stable insertion sort below 17
  elements, and is unstable for tied values beyond that), so no theorem
  states a universal tie order;
* Python slicing `xs[-k:]` for an arbitrary integer `k`.
-/

/-- A Python string, modelled as its list of characters. -/
abbrev PyStr := List Char

/-- Python's notion of a whitespace character, specialised to the
character set the corpus uses. -/
def isWs (c : Char) : Bool := c.isWhitespace

/-- Maximal runs of characters satisfying `p`; the characters failing `p`
separate the runs and are discarded.  `cur` holds the (reversed) run in
progress. -/
def runsAux (p : Char → Bool) : PyStr → PyStr → List PyStr
  | [], cur => if cur = [] then [] else [cur.reverse]
  | c :: rest, cur =>
    if p c then runsAux p rest (c :: cur)
    else if cur = [] then runsAux p rest [] else cur.reverse :: runsAux p rest []

/-- Python `text.split()`: maximal runs of non-whitespace characters. -/
def pySplit (s : PyStr) : List PyStr := runsAux (fun c => !(isWs c)) s []

/-- Python `s.lstrip()`. -/
def lstrip (s : PyStr) : PyStr := s.dropWhile isWs

/-- Python `s.rstrip()`. -/
def rstrip (s : PyStr) : PyStr := (s.reverse.dropWhile isWs).reverse

/-- Python `s.strip()`. -/
def strip (s : PyStr) : PyStr := rstrip (lstrip s)

/-- The space character used as the chunk separator. -/
def sp : Char := ' '

/-- The `for word in words` loop of `split_into_chunks`, including the
final `if current_chunk: chunks.append(current_chunk.strip())`.
`cur` is `current_chunk`. -/
def chunkLoop (cs : Int) : PyStr → List PyStr → List PyStr
  | cur, [] => if cur = [] then [] else [strip cur]
  | cur, w :: ws =>
    if (cur.length + w.length + 1 : Int) ≤ cs then
      chunkLoop cs (cur ++ w ++ [sp]) ws
    else
      strip cur :: chunkLoop cs (w ++ [sp]) ws

/-- `split_into_chunks(text, chunk_size)` from `rag_bedrock_real.py`:
`words = text.split()` followed by the greedy accumulation loop. -/
def split_into_chunks (text : PyStr) (chunk_size : Int := 1000) : List PyStr :=
  chunkLoop chunk_size [] (pySplit text)

/-- A word character in the sense of the default `TfidfVectorizer` token
pattern `\b\w\w+\b` (ASCII corpus). -/
def isWordChar (c : Char) : Bool := c.isAlphanum || c == '_'

/-- The default `TfidfVectorizer` analyzer: lowercase, then keep the
maximal runs of word characters having at least two characters. -/
def sklearnTokenize (doc : PyStr) : List PyStr :=
  (runsAux isWordChar (doc.map Char.toLower) []).filter (fun t => 2 ≤ t.length)

/-- Lexicographic comparison on character lists, used to model the
alphabetically sorted vocabulary produced by `TfidfVectorizer.fit`. -/
def strLeB : PyStr → PyStr → Bool
  | [], _ => true
  | _ :: _, [] => false
  | a :: as, b :: bs => if a < b then true else if b < a then false else strLeB as bs

/-- The fitted state of a `TfidfVectorizer`: the frozen vocabulary, the
per-term document frequencies and the corpus size, from which the idf
weights are computed. -/
structure Vectorizer where
  vocab : List PyStr
  dfs : List Nat
  nDocs : Nat

/-- `TfidfVectorizer.fit(docs)`: vocabulary is the sorted set of all
tokens; each term carries its document frequency. -/
def fitVectorizer (docs : List PyStr) : Vectorizer :=
  ⟨List.insertionSort (fun a b => strLeB a b = true) ((docs.map sklearnTokenize).flatten.dedup),
   (List.insertionSort (fun a b => strLeB a b = true)
      ((docs.map sklearnTokenize).flatten.dedup)).map
     (fun t => docs.countP (fun d => decide (t ∈ sklearnTokenize d))),
   docs.length⟩

/-- Smoothed inverse document frequency of the default
`TfidfVectorizer` (`smooth_idf=True`): `ln((1+n)/(1+df)) + 1`. -/
noncomputable def idf (n df : Nat) : ℝ := Real.log ((1 + (n : ℝ)) / (1 + (df : ℝ))) + 1

/-- Dot product of two coordinate lists. -/
def dot (u v : List ℝ) : ℝ := (List.zipWith (· * ·) u v).sum

/-- Euclidean norm of a coordinate list. -/
noncomputable def norm2 (v : List ℝ) : ℝ := Real.sqrt (dot v v)

/-- `sklearn`'s row normalisation: divide by the L2 norm, keeping
all-zero rows unchanged. -/
noncomputable def l2normalize (v : List ℝ) : List ℝ :=
  if norm2 v = 0 then v else v.map (fun x => x / norm2 v)

/-- `vectorizer.transform([doc])`: term counts weighted by idf over the
frozen vocabulary, L2-normalised. -/
noncomputable def transform (vz : Vectorizer) (doc : PyStr) : List ℝ :=
  l2normalize ((vz.vocab.zip vz.dfs).map
    (fun p => ((sklearnTokenize doc).count p.1 : ℝ) * idf vz.nDocs p.2))

/-- `sklearn.cosine_similarity` on a pair of rows: both rows are
L2-normalised (zero rows kept as zero) and then multiplied. -/
noncomputable def cosSim (u v : List ℝ) : ℝ := dot (l2normalize u) (l2normalize v)

/-- `cosine_similarity(query_vector, vectors)[0]` of
`retrieve_relevant_chunks`: the similarity of the query to every stored
row, in row order. -/
noncomputable def similarities (vz : Vectorizer) (vecs : List (List ℝ)) (q : PyStr) : List ℝ :=
  vecs.map (fun v => cosSim (transform vz q) v)

/-- The comparison used to model `numpy.argsort`: ascending value, with
ties broken by index to make the model deterministic.  The tie clause
coincides with numpy only on arrays of at most 16 elements (the stable
insertion-sort range of its default introsort); for larger tied arrays
numpy guarantees no tie order, so the tie clause is relied on only for
the concrete 3-element corpus below. -/
def simRel (s : List ℝ) (i j : Nat) : Prop :=
  s.getD i 0 < s.getD j 0 ∨ (s.getD i 0 = s.getD j 0 ∧ i ≤ j)

noncomputable instance (s : List ℝ) : DecidableRel (simRel s) := fun i j => by
  unfold simRel
  infer_instance

/-- `similarities.argsort()`: the indices of `s`, sorted by ascending
value.  Tie order follows `simRel`; see its comment for the fidelity
scope of that determinization. -/
noncomputable def argsort (s : List ℝ) : List Nat :=
  List.insertionSort (simRel s) (List.range s.length)

/-- The start offset of the Python slice `xs[-k:]` on a list of length
`n`, for an arbitrary integer `k`. -/
def pyStart (k : Int) (n : Nat) : Nat :=
  if -k < 0 then (max ((n : Int) + -k) 0).toNat else min (-k).toNat n

/-- Python `xs[-k:]` for an arbitrary integer `k`. -/
def sliceLastK (k : Int) (l : List Nat) : List Nat := l.drop (pyStart k l.length)

/-- `similarities.argsort()[-k:][::-1]` of `retrieve_relevant_chunks`:
the indices of the returned chunks, in returned order. -/
noncomputable def retrieveIndices (q : PyStr) (vz : Vectorizer) (vecs : List (List ℝ))
    (k : Int) : List Nat :=
  (sliceLastK k (argsort (similarities vz vecs q))).reverse

/-- `retrieve_relevant_chunks(query, vectorizer, vectors, chunks, k)`. -/
noncomputable def retrieve_relevant_chunks (q : PyStr) (vz : Vectorizer)
    (vecs : List (List ℝ)) (chunks : List PyStr) (k : Int := 3) : List PyStr :=
  (retrieveIndices q vz vecs k).map (fun i => chunks.getD i [])

/-- The failure `create_vector_store` can surface: `TfidfVectorizer`
raises `ValueError("empty vocabulary ...")` when fitting finds no term;
the spec names this failure `EmptyCorpus`. -/
inductive RagError where
  | emptyVocabulary
deriving DecidableEq

/-- `create_vector_store(chunks)`: fit the vectorizer on the chunks and
return `(vectorizer, vectors, chunks)`; fitting an empty vocabulary
raises. -/
noncomputable def create_vector_store (chunks : List PyStr) :
    Except RagError (Vectorizer × List (List ℝ) × List PyStr) :=
  if (fitVectorizer chunks).vocab = [] then .error .emptyVocabulary
  else .ok (fitVectorizer chunks, chunks.map (transform (fitVectorizer chunks)), chunks)

/-- The build-then-query composition performed by `main`. -/
noncomputable def buildAndRetrieve (frags : List PyStr) (q : PyStr) (k : Int) :
    Option (List PyStr) :=
  match create_vector_store frags with
  | .ok (vz, vecs, chunks) => some (retrieve_relevant_chunks q vz vecs chunks k)
  | .error _ => none

/-! ## Tokenizer infrastructure -/

/-- A well-formed token of `pySplit`: non-empty and whitespace-free. -/
def goodTok (t : PyStr) : Prop := t ≠ [] ∧ ∀ c ∈ t, isWs c = false

lemma runsAux_good (p : Char → Bool) :
    ∀ s cur : PyStr, (∀ c ∈ cur, p c = true) →
      ∀ t ∈ runsAux p s cur, t ≠ [] ∧ ∀ c ∈ t, p c = true := by
  intro s
  induction s with
  | nil =>
    intro cur hcur t ht
    by_cases h : cur = []
    · simp [runsAux, h] at ht
    · simp only [runsAux, if_neg h, List.mem_singleton] at ht
      subst ht
      refine ⟨by simpa using h, fun c hc => hcur c (List.mem_reverse.mp hc)⟩
  | cons c rest ih =>
    intro cur hcur t ht
    rw [runsAux] at ht
    by_cases hp : p c = true
    · rw [if_pos hp] at ht
      refine ih (c :: cur) ?_ t ht
      intro c' hc'
      rcases List.mem_cons.mp hc' with h | h
      · exact h ▸ hp
      · exact hcur _ h
    · rw [if_neg hp] at ht
      by_cases hc : cur = []
      · rw [if_pos hc] at ht
        exact ih [] (by simp) t ht
      · rw [if_neg hc] at ht
        rcases List.mem_cons.mp ht with h | h
        · subst h
          refine ⟨by simpa using hc, fun c' hc' => hcur c' (List.mem_reverse.mp hc')⟩
        · exact ih [] (by simp) t h

lemma pySplit_good (s : PyStr) : ∀ t ∈ pySplit s, goodTok t := by
  intro t ht
  have h := runsAux_good (fun c => !(isWs c)) s [] (by simp) t ht
  exact ⟨h.1, fun c hc => by simpa using h.2 c hc⟩

lemma runsAux_append_sep (p : Char → Bool) (w : Char) (hw : p w = false) :
    ∀ a b cur : PyStr, runsAux p (a ++ w :: b) cur = runsAux p a cur ++ runsAux p b [] := by
  intro a
  induction a with
  | nil =>
    intro b cur
    by_cases hc : cur = [] <;> simp [runsAux, hw, hc]
  | cons c a' ih =>
    intro b cur
    show runsAux p (c :: (a' ++ w :: b)) cur = runsAux p (c :: a') cur ++ runsAux p b []
    rw [runsAux, runsAux]
    by_cases hp : p c = true
    · rw [if_pos hp, if_pos hp, ih]
    · rw [if_neg hp, if_neg hp]
      by_cases hc : cur = []
      · rw [if_pos hc, if_pos hc, ih]
      · rw [if_neg hc, if_neg hc, ih, List.cons_append]

lemma runsAux_all_sat (p : Char → Bool) :
    ∀ t cur : PyStr, (∀ c ∈ t, p c = true) → (t ≠ [] ∨ cur ≠ []) →
      runsAux p t cur = [cur.reverse ++ t] := by
  intro t
  induction t with
  | nil =>
    intro cur _ h
    rcases h with h | h
    · exact absurd rfl h
    · simp [runsAux, h]
  | cons c t' ih =>
    intro cur hall _
    have hp : p c = true := hall c (List.mem_cons_self c t')
    rw [runsAux, if_pos hp,
        ih (c :: cur) (fun c' hc' => hall c' (List.mem_cons_of_mem _ hc')) (Or.inr (by simp))]
    simp

lemma pySplit_single (t : PyStr) (h : goodTok t) : pySplit t = [t] := by
  rw [pySplit, runsAux_all_sat _ t [] (fun c hc => by simp [h.2 c hc]) (Or.inl h.1)]
  simp

lemma pySplit_append_sp (a b : PyStr) : pySplit (a ++ sp :: b) = pySplit a ++ pySplit b :=
  runsAux_append_sep _ sp (by decide) a b []

/-! ## The chunker's buffer and the space-joined fragments -/

/-- Joining fragments with single spaces: the concatenation in the spec's
reconstructibility property, and the trimmed shape of the chunker's
buffer. -/
def sjoin : List PyStr → PyStr
  | [] => []
  | [t] => t
  | t :: ts => t ++ sp :: sjoin ts

lemma sjoin_cons_cons (t t' : PyStr) (ts : List PyStr) :
    sjoin (t :: t' :: ts) = t ++ sp :: sjoin (t' :: ts) := rfl

lemma sjoin_ne_nil (t : PyStr) (ts : List PyStr) (h : t ≠ []) : sjoin (t :: ts) ≠ [] := by
  cases ts with
  | nil => simpa [sjoin] using h
  | cons t' ts' => simp [sjoin]

/-- The chunker's buffer after accumulating the tokens `ts`: each token
followed by one space. -/
def buf (ts : List PyStr) : PyStr := (ts.map (fun t => t ++ [sp])).flatten

lemma buf_cons (t : PyStr) (ts : List PyStr) : buf (t :: ts) = t ++ sp :: buf ts := by
  simp [buf]

lemma buf_singleton (w : PyStr) : buf [w] = w ++ [sp] := by simp [buf]

lemma buf_snoc (ts : List PyStr) (w : PyStr) : buf (ts ++ [w]) = buf ts ++ (w ++ [sp]) := by
  simp [buf]

lemma buf_cons_ne_nil (t : PyStr) (ts : List PyStr) : buf (t :: ts) ≠ [] := by
  simp [buf_cons]

/-! ## `strip` of the buffer -/

lemma dropWhile_all_false (q : Char → Bool) (l : PyStr) (h : ∀ c ∈ l, q c = false) :
    l.dropWhile q = l := by
  cases l with
  | nil => rfl
  | cons c l' =>
    rw [List.dropWhile_cons, if_neg (by simp [h c (List.mem_cons_self c l')])]

lemma dropWhile_append_left (q : Char → Bool) (a b : PyStr) (h : a.dropWhile q ≠ []) :
    (a ++ b).dropWhile q = a.dropWhile q ++ b := by
  rw [List.dropWhile_append]
  simp only [List.isEmpty_iff]
  rw [if_neg h]

lemma lstrip_of_good (t rest : PyStr) (h : goodTok t) : lstrip (t ++ rest) = t ++ rest := by
  obtain ⟨hne, hall⟩ := h
  cases t with
  | nil => exact absurd rfl hne
  | cons c t'' =>
    rw [lstrip, List.cons_append, List.dropWhile_cons,
        if_neg (by simp [hall c (List.mem_cons_self c t'')])]

lemma reverse_good_dropWhile (t : PyStr) (h : ∀ c ∈ t, isWs c = false) :
    t.reverse.dropWhile isWs = t.reverse :=
  dropWhile_all_false isWs t.reverse (fun c hc => h c (List.mem_reverse.mp hc))

lemma rstrip_buf : ∀ ts : List PyStr, (∀ t ∈ ts, goodTok t) → rstrip (buf ts) = sjoin ts := by
  intro ts
  induction ts with
  | nil => intro _; rfl
  | cons t ts' ih =>
    intro hgood
    have hg : goodTok t := hgood t (List.mem_cons_self _ _)
    cases ts' with
    | nil =>
      have h1 : (buf [t]).reverse = sp :: t.reverse := by simp [buf]
      rw [rstrip, h1, List.dropWhile_cons, if_pos (by decide),
          reverse_good_dropWhile t hg.2, List.reverse_reverse]
      rfl
    | cons t' ts'' =>
      have hgood' : ∀ u ∈ t' :: ts'', goodTok u :=
        fun u hu => hgood u (List.mem_cons_of_mem _ hu)
      have hrest : rstrip (buf (t' :: ts'')) = sjoin (t' :: ts'') := ih hgood'
      have hdw : (buf (t' :: ts'')).reverse.dropWhile isWs = (sjoin (t' :: ts'')).reverse := by
        have h := congrArg List.reverse hrest
        rw [rstrip, List.reverse_reverse] at h
        exact h
      have hne : (buf (t' :: ts'')).reverse.dropWhile isWs ≠ [] := by
        rw [hdw]
        simpa using sjoin_ne_nil t' ts'' (hgood' t' (List.mem_cons_self _ _)).1
      have hsplit : buf (t :: t' :: ts'') = (t ++ [sp]) ++ buf (t' :: ts'') := by simp [buf]
      rw [rstrip, hsplit, List.reverse_append, dropWhile_append_left _ _ _ hne, hdw,
          List.reverse_append, List.reverse_reverse, List.reverse_reverse]
      simp [sjoin_cons_cons]

lemma strip_buf (ts : List PyStr) (h : ∀ t ∈ ts, goodTok t) : strip (buf ts) = sjoin ts := by
  cases ts with
  | nil => rfl
  | cons t ts' =>
    rw [strip]
    have hl : lstrip (buf (t :: ts')) = buf (t :: ts') := by
      rw [buf_cons]
      exact lstrip_of_good t (sp :: buf ts') (h t (List.mem_cons_self _ _))
    rw [hl]
    exact rstrip_buf (t :: ts') h

/-! ## Structure of the chunker's output -/

lemma chunkLoop_structure (cs : Int) :
    ∀ ws ts : List PyStr, (∀ t ∈ ts, goodTok t) → (∀ t ∈ ws, goodTok t) →
      ∃ groups : List (List PyStr),
        chunkLoop cs (buf ts) ws = groups.map sjoin ∧ groups.flatten = ts ++ ws := by
  intro ws
  induction ws with
  | nil =>
    intro ts hts _
    cases ts with
    | nil => exact ⟨[], by simp [chunkLoop, buf], by simp⟩
    | cons t ts' =>
      refine ⟨[t :: ts'], ?_, by simp⟩
      simp only [chunkLoop]
      rw [if_neg (buf_cons_ne_nil t ts'), strip_buf _ hts]
      simp
  | cons w ws' ih =>
    intro ts hts hws
    have hw : goodTok w := hws w (List.mem_cons_self _ _)
    have hws' : ∀ t ∈ ws', goodTok t := fun t ht => hws t (List.mem_cons_of_mem _ ht)
    by_cases hcond : ((buf ts).length + w.length + 1 : Int) ≤ cs
    · have harg : buf ts ++ w ++ [sp] = buf (ts ++ [w]) := by
        rw [buf_snoc, List.append_assoc]
      have hts' : ∀ t ∈ ts ++ [w], goodTok t := by
        intro t ht
        rcases List.mem_append.mp ht with h | h
        · exact hts t h
        · obtain rfl := List.mem_singleton.mp h
          exact hw
      obtain ⟨groups, h1, h2⟩ := ih (ts ++ [w]) hts' hws'
      refine ⟨groups, ?_, ?_⟩
      · simp only [chunkLoop]
        rw [if_pos hcond, harg, h1]
      · rw [h2, List.append_assoc]
        simp
    · obtain ⟨groups', h1', h2'⟩ := ih [w]
        (by intro t ht; obtain rfl := List.mem_singleton.mp ht; exact hw) hws'
      refine ⟨ts :: groups', ?_, ?_⟩
      · simp only [chunkLoop]
        rw [if_neg hcond, show w ++ [sp] = buf [w] from (buf_singleton w).symm, h1',
            strip_buf ts hts]
        simp
      · simp [h2']

lemma sjoin_length : ∀ (ts : List PyStr) (t : PyStr),
    (sjoin (t :: ts)).length + 1 = (buf (t :: ts)).length := by
  intro ts
  induction ts with
  | nil => intro t; simp [sjoin, buf]
  | cons t' ts' ih =>
    intro t
    rw [sjoin_cons_cons, buf_cons]
    simp only [List.length_append, List.length_cons]
    have h := ih t'
    omega

lemma chunkLoop_bound (cs : Int) (hcs : 0 < cs) :
    ∀ ws ts : List PyStr, (∀ t ∈ ts, goodTok t) → (∀ t ∈ ws, goodTok t) →
      (ts = [] ∨ ((buf ts).length : Int) ≤ cs ∨ ∃ w, ts = [w]) →
      ∀ c ∈ chunkLoop cs (buf ts) ws, (c.length : Int) ≤ cs ∨ c ∈ ts ++ ws := by
  intro ws
  induction ws with
  | nil =>
    intro ts hts _ hinv c hc
    cases ts with
    | nil => simp [chunkLoop, buf] at hc
    | cons t ts' =>
      simp only [chunkLoop] at hc
      rw [if_neg (buf_cons_ne_nil t ts'), strip_buf _ hts] at hc
      obtain rfl := List.mem_singleton.mp hc
      rcases hinv with h | h | ⟨w, h⟩
      · exact absurd h (by simp)
      · left
        have hlen := sjoin_length ts' t
        omega
      · right
        rw [h]
        simp [sjoin]
  | cons w ws' ih =>
    intro ts hts hws hinv c hc
    have hw : goodTok w := hws w (List.mem_cons_self _ _)
    have hws' : ∀ t ∈ ws', goodTok t := fun t ht => hws t (List.mem_cons_of_mem _ ht)
    by_cases hcond : ((buf ts).length + w.length + 1 : Int) ≤ cs
    · simp only [chunkLoop] at hc
      rw [if_pos hcond, show buf ts ++ w ++ [sp] = buf (ts ++ [w]) from
            by rw [buf_snoc, List.append_assoc]] at hc
      have hts' : ∀ t ∈ ts ++ [w], goodTok t := by
        intro t ht
        rcases List.mem_append.mp ht with h | h
        · exact hts t h
        · obtain rfl := List.mem_singleton.mp h
          exact hw
      have hinv' : ts ++ [w] = [] ∨ ((buf (ts ++ [w])).length : Int) ≤ cs ∨
          ∃ u, ts ++ [w] = [u] := by
        right; left
        rw [buf_snoc]
        simp only [List.length_append, List.length_cons, List.length_nil]
        push_cast
        omega
      rcases ih (ts ++ [w]) hts' hws' hinv' c hc with h | h
      · exact Or.inl h
      · right
        rw [List.append_assoc] at h
        simpa using h
    · simp only [chunkLoop] at hc
      rw [if_neg hcond, show w ++ [sp] = buf [w] from (buf_singleton w).symm] at hc
      rcases List.mem_cons.mp hc with rfl | hc'
      · rw [strip_buf ts hts]
        cases ts with
        | nil =>
          left
          simp [sjoin]
          omega
        | cons t ts' =>
          rcases hinv with h | h | ⟨u, h⟩
          · exact absurd h (by simp)
          · left
            have hlen := sjoin_length ts' t
            omega
          · right
            rw [h]
            simp [sjoin]
      · have hinv' : ([w] : List PyStr) = [] ∨ ((buf [w]).length : Int) ≤ cs ∨
            ∃ u, ([w] : List PyStr) = [u] := Or.inr (Or.inr ⟨w, rfl⟩)
        rcases ih [w] (by intro t ht; obtain rfl := List.mem_singleton.mp ht; exact hw)
            hws' hinv' c hc' with h | h
        · exact Or.inl h
        · right
          rcases List.mem_append.mp h with h | h
          · obtain rfl := List.mem_singleton.mp h
            simp
          · simp [List.mem_cons.mpr (Or.inr h)]

lemma chunkLoop_nonpos (cs : Int) (hcs : cs ≤ 0) :
    ∀ (ws : List PyStr) (w : PyStr), goodTok w → (∀ t ∈ ws, goodTok t) →
      chunkLoop cs (w ++ [sp]) ws = w :: ws := by
  intro ws
  induction ws with
  | nil =>
    intro w hw _
    simp only [chunkLoop]
    rw [if_neg (by simp), show w ++ [sp] = buf [w] from (buf_singleton w).symm,
        strip_buf [w] (by intro t ht; obtain rfl := List.mem_singleton.mp ht; exact hw)]
    rfl
  | cons w2 ws' ih =>
    intro w hw hws
    simp only [chunkLoop]
    have hc : ¬ ((w ++ [sp]).length + w2.length + 1 : Int) ≤ cs := by
      simp only [List.length_append, List.length_cons, List.length_nil]
      omega
    rw [if_neg hc, show w ++ [sp] = buf [w] from (buf_singleton w).symm,
        strip_buf [w] (by intro t ht; obtain rfl := List.mem_singleton.mp ht; exact hw),
        ih w2 (hws w2 (List.mem_cons_self _ _)) (fun t ht => hws t (List.mem_cons_of_mem _ ht))]
    rfl

/-! ## Reconstructibility machinery -/

lemma pySplit_sjoin_group : ∀ g : List PyStr, (∀ t ∈ g, goodTok t) → pySplit (sjoin g) = g := by
  intro g
  induction g with
  | nil => intro _; rfl
  | cons t g' ih =>
    intro h
    have ht : goodTok t := h t (List.mem_cons_self _ _)
    cases g' with
    | nil => exact pySplit_single t ht
    | cons t' g'' =>
      rw [sjoin_cons_cons, pySplit_append_sp, pySplit_single t ht,
          ih (fun u hu => h u (List.mem_cons_of_mem _ hu))]
      rfl

lemma pySplit_sjoin_chunks : ∀ groups : List (List PyStr),
    (∀ g ∈ groups, ∀ t ∈ g, goodTok t) →
      pySplit (sjoin (groups.map sjoin)) = groups.flatten := by
  intro groups
  induction groups with
  | nil => intro _; rfl
  | cons g gs ih =>
    intro h
    have hg : ∀ t ∈ g, goodTok t := h g (List.mem_cons_self _ _)
    have hgs : ∀ g' ∈ gs, ∀ t ∈ g', goodTok t := fun g' hg' => h g' (List.mem_cons_of_mem _ hg')
    cases gs with
    | nil =>
      show pySplit (sjoin [sjoin g]) = (g :: []).flatten
      rw [show sjoin [sjoin g] = sjoin g from rfl, pySplit_sjoin_group g hg]
      simp
    | cons g' gs' =>
      have ih' := ih hgs
      simp only [List.map_cons] at ih'
      simp only [List.map_cons]
      rw [sjoin_cons_cons, pySplit_append_sp, pySplit_sjoin_group g hg, ih']
      simp

/-! ## Retriever infrastructure -/

lemma dot_left_zero : ∀ u v : List ℝ, (∀ x ∈ u, x = 0) → dot u v = 0 := by
  intro u
  induction u with
  | nil => intro v _; simp [dot]
  | cons x u' ih =>
    intro v h
    cases v with
    | nil => simp [dot]
    | cons y v' =>
      have hx : x = 0 := h x (List.mem_cons_self _ _)
      have hrest := ih v' (fun z hz => h z (List.mem_cons_of_mem _ hz))
      simp only [dot, List.zipWith_cons_cons, List.sum_cons] at *
      rw [hx, zero_mul, zero_add]
      exact hrest

lemma l2normalize_zero (m : Nat) : l2normalize (List.replicate m 0) = List.replicate m 0 := by
  rw [l2normalize, if_pos]
  rw [norm2, dot_left_zero _ _ (fun x hx => List.eq_of_mem_replicate hx), Real.sqrt_zero]

lemma cosSim_left_zero (m : Nat) (v : List ℝ) : cosSim (List.replicate m 0) v = 0 := by
  rw [cosSim, l2normalize_zero]
  exact dot_left_zero _ _ (fun x hx => List.eq_of_mem_replicate hx)

lemma transform_zero (vz : Vectorizer) (q : PyStr)
    (hlen : vz.vocab.length ≤ vz.dfs.length)
    (h : ∀ t ∈ sklearnTokenize q, t ∉ vz.vocab) :
    transform vz q = List.replicate vz.vocab.length 0 := by
  have hrow : (vz.vocab.zip vz.dfs).map
      (fun p => ((sklearnTokenize q).count p.1 : ℝ) * idf vz.nDocs p.2) =
      List.replicate vz.vocab.length 0 := by
    rw [List.eq_replicate_iff]
    constructor
    · rw [List.length_map, List.length_zip]
      omega
    · intro b hb
      obtain ⟨⟨t, df⟩, hmem, rfl⟩ := List.mem_map.mp hb
      have ht : t ∈ vz.vocab := (List.of_mem_zip hmem).1
      have hnot : t ∉ sklearnTokenize q := fun hmem' => h t hmem' ht
      rw [List.count_eq_zero.mpr hnot]
      simp
  rw [transform, hrow, l2normalize_zero]

lemma similarities_zero (vz : Vectorizer) (vecs : List (List ℝ)) (q : PyStr)
    (hq : transform vz q = List.replicate vz.vocab.length 0) :
    similarities vz vecs q = List.replicate vecs.length 0 := by
  rw [similarities, List.eq_replicate_iff]
  refine ⟨by simp, ?_⟩
  intro b hb
  obtain ⟨v, _, rfl⟩ := List.mem_map.mp hb
  rw [hq, cosSim_left_zero]

lemma simRel_total (s : List ℝ) : ∀ i j, simRel s i j ∨ simRel s j i := by
  intro i j
  rcases lt_trichotomy (s.getD i 0) (s.getD j 0) with h | h | h
  · exact Or.inl (Or.inl h)
  · rcases Nat.le_total i j with hij | hij
    · exact Or.inl (Or.inr ⟨h, hij⟩)
    · exact Or.inr (Or.inr ⟨h.symm, hij⟩)
  · exact Or.inr (Or.inl h)

instance (s : List ℝ) : IsTotal Nat (simRel s) := ⟨simRel_total s⟩

lemma simRel_trans (s : List ℝ) : ∀ i j m, simRel s i j → simRel s j m → simRel s i m := by
  intro i j m hij hjm
  rcases hij with h1 | ⟨h1, hle1⟩
  · rcases hjm with h2 | ⟨h2, _⟩
    · exact Or.inl (h1.trans h2)
    · exact Or.inl (by rw [← h2]; exact h1)
  · rcases hjm with h2 | ⟨h2, hle2⟩
    · exact Or.inl (by rw [h1]; exact h2)
    · exact Or.inr ⟨h1.trans h2, hle1.trans hle2⟩

instance (s : List ℝ) : IsTrans Nat (simRel s) := ⟨fun a b c => simRel_trans s a b c⟩

lemma argsort_perm (s : List ℝ) : (argsort s).Perm (List.range s.length) :=
  List.perm_insertionSort _ _

lemma argsort_length (s : List ℝ) : (argsort s).length = s.length := by
  rw [(argsort_perm s).length_eq, List.length_range]

lemma argsort_sorted (s : List ℝ) : (argsort s).Pairwise (simRel s) :=
  List.sorted_insertionSort _ _

lemma argsort_nodup (s : List ℝ) : (argsort s).Nodup :=
  (argsort_perm s).symm.nodup (List.nodup_range _)

lemma getD_replicate_zero (m i : Nat) : (List.replicate m (0:ℝ)).getD i 0 = 0 := by
  induction m generalizing i with
  | zero => simp
  | succ m ih =>
    cases i with
    | zero => simp [List.replicate_succ]
    | succ i' => simp [List.replicate_succ, ih i']

lemma argsort_replicate_zero (m : Nat) : argsort (List.replicate m (0:ℝ)) = List.range m := by
  have hs : List.Sorted (simRel (List.replicate m 0)) (List.range m) := by
    refine List.Pairwise.imp ?_ (List.pairwise_lt_range m)
    intro i j hij
    exact Or.inr ⟨by rw [getD_replicate_zero, getD_replicate_zero], Nat.le_of_lt hij⟩
  rw [argsort, List.length_replicate]
  exact hs.insertionSort_eq

lemma length_retrieveIndices (q : PyStr) (vz : Vectorizer) (vecs : List (List ℝ)) (k : Int) :
    (retrieveIndices q vz vecs k).length = vecs.length - pyStart k vecs.length := by
  rw [retrieveIndices, List.length_reverse, sliceLastK, List.length_drop, argsort_length]
  rw [similarities, List.length_map]

lemma length_retrieve (q : PyStr) (vz : Vectorizer) (vecs : List (List ℝ))
    (chunks : List PyStr) (k : Int) :
    (retrieve_relevant_chunks q vz vecs chunks k).length =
      vecs.length - pyStart k vecs.length := by
  rw [retrieve_relevant_chunks, List.length_map, length_retrieveIndices]

lemma map_getD_range : ∀ l : List PyStr, (List.range l.length).map (fun i => l.getD i []) = l := by
  intro l
  induction l with
  | nil => rfl
  | cons a l' ih =>
    rw [List.length_cons, List.range_succ_eq_map, List.map_cons, List.map_map]
    have hcomp : ((fun i => (a :: l').getD i []) ∘ Nat.succ) = fun i => l'.getD i [] := by
      funext i
      simp
    rw [hcomp, ih]
    simp

lemma pyStart_pos (k : Int) (n : Nat) (hk : 0 < k) : n - pyStart k n = min k.toNat n := by
  rw [pyStart, if_pos (by omega : -k < 0)]
  omega

lemma create_ok {frags : List PyStr} {vz : Vectorizer} {vecs : List (List ℝ)}
    {chunks : List PyStr}
    (h : create_vector_store frags = .ok (vz, vecs, chunks)) :
    vz = fitVectorizer frags ∧ vecs = frags.map (transform (fitVectorizer frags)) ∧
      chunks = frags := by
  rw [create_vector_store] at h
  by_cases hc : (fitVectorizer frags).vocab = []
  · rw [if_pos hc] at h
    exact absurd h (by simp)
  · rw [if_neg hc] at h
    simp only [Except.ok.injEq, Prod.mk.injEq] at h
    exact ⟨h.1.symm, h.2.1.symm, h.2.2.symm⟩

/-! ## The concrete three-fragment corpus of the spec's section 8.6 -/

/-- The three fragments the spec's end-to-end scenario indexes. -/
def threeFrags : List PyStr := ["alpha beta".data, "gamma alpha".data, "beta alpha".data]

/-- The query `"zzz"`, whose only term is absent from the vocabulary. -/
def zzzQ : PyStr := "zzz".data

/-- The vectorizer fitted on the three fragments. -/
def vzD : Vectorizer := fitVectorizer threeFrags

/-- The stored rows of the three-fragment index. -/
noncomputable def vecsD : List (List ℝ) := threeFrags.map (transform vzD)

lemma demo_build : create_vector_store threeFrags = .ok (vzD, vecsD, threeFrags) := by
  rw [create_vector_store, if_neg (by decide)]
  rfl

lemma demo_sims : similarities vzD vecsD zzzQ = List.replicate 3 0 := by
  have hq : ∀ t ∈ sklearnTokenize zzzQ, t ∉ vzD.vocab := by decide
  have hlen : vzD.vocab.length ≤ vzD.dfs.length := by decide
  have h := similarities_zero vzD vecsD zzzQ (transform_zero vzD zzzQ hlen hq)
  rw [h, show vecsD.length = 3 from by simp [vecsD, threeFrags]]


/-! ## The claims -/

/-- Claim C1 (counterexample): the claim says `Split` on
`"alpha beta gamma alpha beta alpha"` with `chunk_size = 11` returns
`["alpha beta", "gamma alpha", "beta alpha"]`; the code does not: the
buffer carries a trailing space, so the `+1` in the length check counts
the separator twice and `"gamma alpha"` is never formed. -/
theorem claimC1_counterexample :
    split_into_chunks "alpha beta gamma alpha beta alpha".data 11 ≠
      ["alpha beta".data, "gamma alpha".data, "beta alpha".data] := by decide

/-- Claim C1 (amended): for the input text
`"alpha beta gamma alpha beta alpha"` with `chunk_size = 11`, `Split`
returns exactly the four-fragment sequence
`["alpha beta", "gamma", "alpha beta", "alpha"]`. -/
theorem claimC1_amended :
    split_into_chunks "alpha beta gamma alpha beta alpha".data 11 =
      ["alpha beta".data, "gamma".data, "alpha beta".data, "alpha".data] := by decide

/-- Claim C4 (counterexample): the claim says `Split` with
`chunk_size ≤ 0` fails fast with `InvalidArgument`; the code performs no
validation and returns a fragment sequence, here
`["", "a", "b"]` for input `"a b"` with `chunk_size = 0`. -/
theorem claimC4_counterexample :
    split_into_chunks "a b".data 0 = [[], "a".data, "b".data] := by decide

/-- Claim C4 (amended): for every input text, `Split` invoked with
`chunk_size ≤ 0` does not fail; it returns `[]` when the text has no
token and otherwise an empty first fragment followed by every token as
its own fragment. -/
theorem claimC4_amended (text : PyStr) (cs : Int) (hcs : cs ≤ 0) :
    split_into_chunks text cs =
      if pySplit text = [] then [] else [] :: pySplit text := by
  have hall := pySplit_good text
  cases htok : pySplit text with
  | nil =>
    rw [if_pos rfl, split_into_chunks, htok]
    rfl
  | cons w ws =>
    rw [htok] at hall
    rw [if_neg (by simp), split_into_chunks, htok]
    simp only [chunkLoop]
    rw [if_neg (by simp only [List.length_nil]; push_cast; omega)]
    rw [chunkLoop_nonpos cs hcs ws w (hall w (List.mem_cons_self _ _))
        (fun t ht => hall t (List.mem_cons_of_mem _ ht))]
    rfl

/-- Witness for the amended claim C4 at `text = "a b"`, `chunk_size = 0`. -/
theorem claimC4_witness :
    (0:ℤ) ≤ 0 ∧ split_into_chunks "a b".data 0 =
      (if pySplit "a b".data = [] then [] else [] :: pySplit "a b".data) :=
  ⟨le_refl 0, claimC4_amended "a b".data 0 (le_refl 0)⟩

/-- Claim C5: for all non-empty `text` and `chunk_size > 0`, every
fragment returned by `Split` either has length at most `chunk_size` or is
a single token (an element of the whitespace token list) longer than
`chunk_size`. -/
theorem claimC5 (text : PyStr) (cs : Int) (_htext : text ≠ []) (hcs : 0 < cs) :
    ∀ c ∈ split_into_chunks text cs,
      (c.length : Int) ≤ cs ∨ (c ∈ pySplit text ∧ cs < (c.length : Int)) := by
  intro c hc
  have hc' : c ∈ chunkLoop cs (buf []) (pySplit text) := hc
  have h := chunkLoop_bound cs hcs (pySplit text) [] (by simp) (pySplit_good text)
      (Or.inl rfl) c hc'
  rcases h with h | h
  · exact Or.inl h
  · by_cases hlen : (c.length : Int) ≤ cs
    · exact Or.inl hlen
    · exact Or.inr ⟨by simpa using h, by omega⟩

/-- Witness for claim C5 at the section-8.6 text and `chunk_size = 11`. -/
theorem claimC5_witness :
    "alpha beta gamma alpha beta alpha".data ≠ [] ∧ (0:ℤ) < 11 ∧
      ∀ c ∈ split_into_chunks "alpha beta gamma alpha beta alpha".data 11,
        (c.length : Int) ≤ 11 ∨
          (c ∈ pySplit "alpha beta gamma alpha beta alpha".data ∧ 11 < (c.length : Int)) :=
  ⟨by decide, by norm_num,
    claimC5 "alpha beta gamma alpha beta alpha".data 11 (by decide) (by norm_num)⟩

/-- Claim C6: for every text and every `chunk_size > 0`, joining the
fragments returned by `Split` with single spaces yields a string whose
whitespace token sequence equals the token sequence of the original
text, in order. -/
theorem claimC6 (text : PyStr) (cs : Int) (_hcs : 0 < cs) :
    pySplit (sjoin (split_into_chunks text cs)) = pySplit text := by
  obtain ⟨groups, h1, h2⟩ :=
    chunkLoop_structure cs (pySplit text) [] (by simp) (pySplit_good text)
  have h1' : split_into_chunks text cs = groups.map sjoin := h1
  have hg : ∀ g ∈ groups, ∀ t ∈ g, goodTok t := by
    intro g hgmem t ht
    have hmem : t ∈ groups.flatten := List.mem_flatten.mpr ⟨g, hgmem, ht⟩
    rw [h2] at hmem
    exact pySplit_good text t (by simpa using hmem)
  rw [h1', pySplit_sjoin_chunks groups hg, h2]
  simp

/-- Witness for claim C6 at the section-8.6 text and `chunk_size = 11`. -/
theorem claimC6_witness :
    (0:ℤ) < 11 ∧
      pySplit (sjoin (split_into_chunks "alpha beta gamma alpha beta alpha".data 11)) =
        pySplit "alpha beta gamma alpha beta alpha".data :=
  ⟨by norm_num, claimC6 "alpha beta gamma alpha beta alpha".data 11 (by norm_num)⟩

/-- Claim C10: for every `chunk_size > 0` and every input text whose
first whitespace token is at least `chunk_size` long, the first fragment
returned by `Split` is the empty string. -/
theorem claimC10 (text : PyStr) (cs : Int) (_hcs : 0 < cs) (w : PyStr) (ws : List PyStr)
    (htok : pySplit text = w :: ws) (hlen : cs ≤ (w.length : Int)) :
    ∃ rest, split_into_chunks text cs = [] :: rest := by
  refine ⟨chunkLoop cs (w ++ [sp]) ws, ?_⟩
  rw [split_into_chunks, htok]
  simp only [chunkLoop]
  rw [if_neg (by simp only [List.length_nil]; push_cast; omega)]
  rfl

/-- Witness for claim C10 at `text = "abcd"`, `chunk_size = 3`. -/
theorem claimC10_witness :
    (0:ℤ) < 3 ∧ pySplit "abcd".data = ["abcd".data] ∧
      (3:ℤ) ≤ ("abcd".data.length : Int) ∧
      ∃ rest, split_into_chunks "abcd".data 3 = [] :: rest :=
  ⟨by norm_num, by decide, by decide,
    claimC10 "abcd".data 3 (by norm_num) "abcd".data [] (by decide) (by decide)⟩

/-- Claim C9: `Build` invoked with an empty fragment sequence fails with
the empty-vocabulary error (the spec's `EmptyCorpus`); it does not
produce an index. -/
theorem claimC9 : create_vector_store [] = .error .emptyVocabulary := by
  rw [create_vector_store, if_pos (show (fitVectorizer []).vocab = [] from rfl)]

/-- Claim C7: on a built index, a query all of whose terms are absent
from the vocabulary does not fail: the result has `min k n` fragments and
every stored fragment has cosine similarity `0` to the query. -/
theorem claimC7 (frags : List PyStr) (vz : Vectorizer) (vecs : List (List ℝ))
    (chunks : List PyStr) (h : create_vector_store frags = .ok (vz, vecs, chunks))
    (q : PyStr) (k : Int) (hk : 0 < k)
    (hq : ∀ t ∈ sklearnTokenize q, t ∉ vz.vocab) :
    (retrieve_relevant_chunks q vz vecs chunks k).length = min k.toNat chunks.length ∧
      similarities vz vecs q = List.replicate chunks.length 0 := by
  obtain ⟨hvz, hvecs, hchunks⟩ := create_ok h
  have hveclen : vecs.length = chunks.length := by rw [hvecs, hchunks]; simp
  have hlen : vz.vocab.length ≤ vz.dfs.length := by
    rw [hvz]
    simp [fitVectorizer]
  constructor
  · rw [length_retrieve, hveclen, pyStart_pos k chunks.length hk]
  · rw [similarities_zero vz vecs q (transform_zero vz q hlen hq), hveclen]

/-- Witness for claim C7: the three-fragment index, query `"zzz"`,
`k = 2`. -/
theorem claimC7_witness :
    ∃ (vz : Vectorizer) (vecs : List (List ℝ)) (chunks : List PyStr),
      create_vector_store threeFrags = .ok (vz, vecs, chunks) ∧ (0:ℤ) < 2 ∧
        (∀ t ∈ sklearnTokenize zzzQ, t ∉ vz.vocab) ∧
        (retrieve_relevant_chunks zzzQ vz vecs chunks 2).length =
          min (2:ℤ).toNat chunks.length ∧
        similarities vz vecs zzzQ = List.replicate chunks.length 0 :=
  ⟨vzD, vecsD, threeFrags, demo_build, by norm_num, by decide,
    (claimC7 threeFrags vzD vecsD threeFrags demo_build zzzQ 2 (by norm_num) (by decide)).1,
    (claimC7 threeFrags vzD vecsD threeFrags demo_build zzzQ 2 (by norm_num) (by decide)).2⟩

/-- Claim C3 (counterexample): the claim says `Query` with `k ≤ 0` fails
with `InvalidArgument`; the code performs no validation: because of
Python slicing, `k = 0` returns all fragments — on the three-fragment
index the result is a 3-element fragment sequence, not a failure. -/
theorem claimC3_counterexample :
    (buildAndRetrieve threeFrags zzzQ 0).map List.length = some 3 := by
  rw [buildAndRetrieve, demo_build]
  show some (retrieve_relevant_chunks zzzQ vzD vecsD threeFrags 0).length = some 3
  rw [length_retrieve]
  norm_num [vecsD, threeFrags, pyStart]

/-- Claim C3 (amended): on a built index with `n` fragments, `Query`
invoked with `k ≤ 0` does not fail: it returns a sequence of
`n - min(|k|, n)` fragments (all `n` fragments when `k = 0`). -/
theorem claimC3_amended (frags : List PyStr) (vz : Vectorizer) (vecs : List (List ℝ))
    (chunks : List PyStr) (h : create_vector_store frags = .ok (vz, vecs, chunks))
    (q : PyStr) (k : Int) (hk : k ≤ 0) :
    (retrieve_relevant_chunks q vz vecs chunks k).length =
      chunks.length - min (-k).toNat chunks.length := by
  obtain ⟨_, hvecs, hchunks⟩ := create_ok h
  have hveclen : vecs.length = chunks.length := by rw [hvecs, hchunks]; simp
  rw [length_retrieve, hveclen, pyStart, if_neg (by omega)]

/-- Witness for the amended claim C3 at the three-fragment index and
`k = 0`. -/
theorem claimC3_witness :
    ∃ (vz : Vectorizer) (vecs : List (List ℝ)) (chunks : List PyStr),
      create_vector_store threeFrags = .ok (vz, vecs, chunks) ∧ (0:ℤ) ≤ 0 ∧
        (retrieve_relevant_chunks zzzQ vz vecs chunks 0).length =
          chunks.length - min (-(0:ℤ)).toNat chunks.length :=
  ⟨vzD, vecsD, threeFrags, demo_build, le_refl 0,
    claimC3_amended threeFrags vzD vecsD threeFrags demo_build zzzQ 0 (le_refl 0)⟩

/-- Claim C2 (counterexample): the claim says equally similar fragments
are returned lowest index first, and that `Query(index, "zzz", 2)` on the
three-fragment index is ordered by index ascending; the code's
`argsort()[-k:][::-1]` reverses a stable ascending sort, so the tied
all-zero query returns the fragments at indices 2 and 1, in that
(descending) order. -/
theorem claimC2_counterexample :
    buildAndRetrieve threeFrags zzzQ 2 = some ["beta alpha".data, "gamma alpha".data] := by
  rw [buildAndRetrieve, demo_build]
  show some (retrieve_relevant_chunks zzzQ vzD vecsD threeFrags 2) = _
  rw [retrieve_relevant_chunks, retrieveIndices, demo_sims, argsort_replicate_zero]
  decide

/-- Claim C2 (amended): no universal index-based tie order holds
(numpy's default argsort is unstable for tied values once the array
leaves the 16-element insertion-sort range of introsort); what the
section-8.6 scenario forces is the concrete case, where the 3-element
all-tied similarity array does take numpy's stable insertion-sort path:
`Query(index, "zzz", 2)` on the three-fragment index returns the
fragments at positions 2 and 1, in descending index order — not
ascending, as the claim stated. -/
theorem claimC2_amended : retrieveIndices zzzQ vzD vecsD 2 = [2, 1] := by
  rw [retrieveIndices, demo_sims, argsort_replicate_zero]
  decide

/-- Claim C8: on a built index with `n` fragments, `Query` with `k > n`
succeeds and returns all `n` fragments, ordered by descending cosine
similarity. -/
theorem claimC8 (frags : List PyStr) (vz : Vectorizer) (vecs : List (List ℝ))
    (chunks : List PyStr) (h : create_vector_store frags = .ok (vz, vecs, chunks))
    (q : PyStr) (k : Int) (hk : (chunks.length : Int) < k) :
    (retrieve_relevant_chunks q vz vecs chunks k).Perm chunks ∧
      ((retrieveIndices q vz vecs k).map
          (fun i => (similarities vz vecs q).getD i 0)).Pairwise (fun a b => b ≤ a) := by
  obtain ⟨_, hvecs, hchunks⟩ := create_ok h
  have hveclen : vecs.length = chunks.length := by rw [hvecs, hchunks]; simp
  have hslen : (similarities vz vecs q).length = chunks.length := by
    rw [similarities, List.length_map, hveclen]
  have hstart : pyStart k (argsort (similarities vz vecs q)).length = 0 := by
    rw [argsort_length, hslen, pyStart, if_pos (by omega : -k < 0)]
    omega
  have hidx : retrieveIndices q vz vecs k = (argsort (similarities vz vecs q)).reverse := by
    rw [retrieveIndices, sliceLastK, hstart, List.drop_zero]
  constructor
  · rw [retrieve_relevant_chunks, hidx]
    have hperm : ((argsort (similarities vz vecs q)).reverse).Perm
        (List.range chunks.length) := by
      refine (List.reverse_perm _).trans ?_
      rw [← hslen]
      exact argsort_perm _
    have hmap := hperm.map (fun i => chunks.getD i [])
    rwa [map_getD_range chunks] at hmap
  · rw [hidx, List.map_reverse, List.pairwise_reverse]
    refine List.Pairwise.map _ ?_ (argsort_sorted (similarities vz vecs q))
    intro a b hab
    rcases hab with hlt | ⟨heq, _⟩
    · exact le_of_lt hlt
    · exact le_of_eq heq

/-- Witness for claim C8 at the three-fragment index and `k = 100`. -/
theorem claimC8_witness :
    ∃ (vz : Vectorizer) (vecs : List (List ℝ)) (chunks : List PyStr),
      create_vector_store threeFrags = .ok (vz, vecs, chunks) ∧
        (chunks.length : Int) < 100 ∧
        (retrieve_relevant_chunks zzzQ vz vecs chunks 100).Perm chunks ∧
        ((retrieveIndices zzzQ vz vecs 100).map
            (fun i => (similarities vz vecs zzzQ).getD i 0)).Pairwise (fun a b => b ≤ a) :=
  ⟨vzD, vecsD, threeFrags, demo_build, by decide,
    (claimC8 threeFrags vzD vecsD threeFrags demo_build zzzQ 100 (by decide)).1,
    (claimC8 threeFrags vzD vecsD threeFrags demo_build zzzQ 100 (by decide)).2⟩
